import Mathlib

/-!
Verification of `fedml_api/distributed/fedgkt/utils.py` and
`fedml_api/distributed/fedopt/FedOptAPI.py`.

Tensors of floats are modelled over `Real`; model parameters are lists of
values together with a shape; Python integer arithmetic is `Int`/`Nat`;
Python division (which raises `ZeroDivisionError` on a zero denominator) is
modelled as an `Option`-valued operation.
-/

set_option maxHeartbeats 1000000

namespace FedML

/-! ### Parameter flattening (`get_flat_params_from`, `set_flat_params_to`) -/

/-- A model parameter tensor: its shape (`param.size()`) and its stored
values (`param.data`, in row-major order, as produced by `view(-1)`). -/
structure Param (α : Type) where
  shape : List Nat
  data : List α
deriving DecidableEq

/-- `int(np.prod(list(param.size())))`: the number of elements of the tensor
(`np.prod` of the empty list is `1`, matching a zero-dimensional tensor). -/
def Param.numel {α : Type} (p : Param α) : Nat := p.shape.prod

/-- A real tensor stores exactly `numel` values (PyTorch guarantees this). -/
def Param.wf {α : Type} (p : Param α) : Prop := p.data.length = p.numel

/-- `get_flat_params_from`: concatenate `param.data.view(-1)` over all
parameters, in traversal order. -/
def get_flat_params_from {α : Type} (ps : List (Param α)) : List α :=
  (ps.map Param.data).flatten

instance {α : Type} (p : Param α) : Decidable p.wf :=
  inferInstanceAs (Decidable (p.data.length = p.numel))

/-- The loop body of `set_flat_params_to`: each parameter receives the slice
`flat_params[prev_ind : prev_ind + flat_size]`, and `prev_ind` advances by
`flat_size = numel`. -/
def set_flat_params_aux {α : Type} (flat : List α) :
    List (Param α) → Nat → List (Param α)
  | [], _ => []
  | p :: rest, prevInd =>
      { p with data := (flat.drop prevInd).take p.numel } ::
        set_flat_params_aux flat rest (prevInd + p.numel)

/-- `set_flat_params_to(model, flat_params)`: copy consecutive slices of
`flat_params` into the parameters, starting at `prev_ind = 0`. -/
def set_flat_params_to {α : Type} (ps : List (Param α)) (flat : List α) :
    List (Param α) :=
  set_flat_params_aux flat ps 0

/-- The value of `prev_ind` after the loop of `set_flat_params_to`. -/
def set_flat_final_ind {α : Type} : List (Param α) → Nat → Nat
  | [], prevInd => prevInd
  | p :: rest, prevInd => set_flat_final_ind rest (prevInd + p.numel)

/-! ### `RunningAverage` -/

/-- Python division: raises `ZeroDivisionError` when the denominator is `0`,
otherwise returns the quotient. -/
def pydiv (a b : ℚ) : Option ℚ :=
  if b = 0 then none else some (a / b)

/-- `RunningAverage.__init__`: `self.steps = 0; self.total = 0`. -/
structure RunningAverage where
  steps : Nat
  total : ℚ
deriving DecidableEq

def RunningAverage.init : RunningAverage := ⟨0, 0⟩

/-- `update(val)`: `self.total += val; self.steps += 1`. -/
def RunningAverage.update (r : RunningAverage) (val : ℚ) : RunningAverage :=
  { r with total := r.total + val, steps := r.steps + 1 }

/-- `value()`: `self.total / float(self.steps)` under Python division. -/
def RunningAverage.value (r : RunningAverage) : Option ℚ :=
  pydiv r.total (r.steps : ℚ)

/-! ### `get_state_dict` -/

/-- Python exceptions relevant to `get_state_dict`: `AssertionError` versus
any other exception class. -/
inductive PyError where
  | assertionError
  | otherError (code : Nat)
deriving DecidableEq

/-- `get_state_dict(file)`: `torch.load` is abstracted as `load`, where
`load false` is the direct load `torch.load(file)` and `load true` is the
CPU-mapped load `torch.load(file, map_location=...)`.  The `try/except
AssertionError` retries the load CPU-mapped exactly on an `AssertionError`. -/
def get_state_dict {σ : Type} (load : Bool → Except PyError σ) :
    Except PyError σ :=
  match load false with
  | Except.ok s => Except.ok s
  | Except.error PyError.assertionError => load true
  | Except.error e => Except.error e

/-! ### `FedOptAPI.py` role dispatch -/

/-- The role a process takes in `FedML_FedOpt_distributed`, together with the
datum the corresponding init function derives from the rank/size. -/
inductive FedOptRole where
  | server (worker_num : Int)
  | client (client_index : Int)
deriving DecidableEq

def FedOptRole.isServer : FedOptRole → Bool
  | server _ => true
  | client _ => false

/-- `init_server`: `worker_num = size - 1`. -/
def init_server_worker_num (size : Int) : Int := size - 1

/-- `init_client`: `client_index = process_id - 1`. -/
def init_client_client_index (process_id : Int) : Int := process_id - 1

/-- `FedML_FedOpt_distributed`: `if process_id == 0: init_server(...)` (with
`size = worker_number`) `else: init_client(...)`. -/
def FedML_FedOpt_distributed (process_id : Int) (worker_number : Int) :
    FedOptRole :=
  if process_id = 0 then FedOptRole.server (init_server_worker_num worker_number)
  else FedOptRole.client (init_client_client_index process_id)

/-! ### Distillation losses (over `Real`) -/

/-- `F.softmax(x, dim=1)` on one row: `exp (x i) / ∑ j, exp (x j)`. -/
noncomputable def softmax {n : Nat} (x : Fin n → Real) : Fin n → Real :=
  fun i => Real.exp (x i) / ∑ j, Real.exp (x j)

/-- `F.log_softmax(x, dim=1)` on one row: `x i - log (∑ j, exp (x j))`
(the mathematical value PyTorch's stabilised implementation computes,
without ever applying `log` to a probability). -/
noncomputable def logSoftmax {n : Nat} (x : Fin n → Real) : Fin n → Real :=
  fun i => x i - Real.log (∑ j, Real.exp (x j))

/-- `KL_Loss.forward`'s `teacher_outputs` after
`F.softmax(teacher_outputs / T, dim=1) + 10 ** (-7)`: the tensor whose
logarithm `nn.KLDivLoss` takes. -/
noncomputable def KL_Loss.target {B n : Nat} (T : Real)
    (teacher_outputs : Fin B → Fin n → Real) : Fin B → Fin n → Real :=
  fun b i => softmax (fun j => teacher_outputs b j / T) i + 1 / 10 ^ 7

/-- `KL_Loss.forward`: `T * T * KLDivLoss(reduction='batchmean')(log_softmax(
output_batch / T), softmax(teacher_outputs / T) + 1e-7)`, where
`KLDivLoss(input, target) = (∑ target * (log target - input)) / batch`. -/
noncomputable def KL_Loss.forward {B n : Nat} (T : Real)
    (output_batch teacher_outputs : Fin B → Fin n → Real) : Real :=
  T * T *
    ((∑ b, ∑ i, KL_Loss.target T teacher_outputs b i *
      (Real.log (KL_Loss.target T teacher_outputs b i) -
        logSoftmax (fun j => output_batch b j / T) i)) / (B : Real))

/-- `CE_Loss.forward`:
`-T * T * torch.sum(log_softmax(output_batch / T) * softmax(teacher_outputs / T))
 / teacher_outputs.size(0)`. -/
noncomputable def CE_Loss.forward {B n : Nat} (T : Real)
    (output_batch teacher_outputs : Fin B → Fin n → Real) : Real :=
  -T * T *
    (∑ b, ∑ i, logSoftmax (fun j => output_batch b j / T) i *
      softmax (fun j => teacher_outputs b j / T) i) / (B : Real)

/-- The probabilities whose logarithm `CE_Loss`'s `log_softmax` term stands
for: `softmax(output_batch / T)`. -/
noncomputable def CE_Loss.softmaxProbs {B n : Nat} (T : Real)
    (output_batch : Fin B → Fin n → Real) : Fin B → Fin n → Real :=
  fun b i => softmax (fun j => output_batch b j / T) i

/-- The spec's soft cross-entropy formula, written from its words:
`-T^2 * sum(softmax(teacher/T) * log_softmax(student/T)) / B`. -/
noncomputable def specSoftCrossEntropy {B n : Nat} (T : Real)
    (student teacher : Fin B → Fin n → Real) : Real :=
  -(T ^ 2 * (∑ b, ∑ i, softmax (fun j => teacher b j / T) i *
      logSoftmax (fun j => student b j / T) i) / (B : Real))

/-- `(x_out.unsqueeze(2) * x_tf_out.unsqueeze(1)).sum(dim=0)`: the summed
outer products of corresponding rows. -/
noncomputable def outerSum {bn k : Nat} (x y : Fin bn → Fin k → Real) :
    Fin k → Fin k → Real :=
  fun i j => ∑ b, x b i * y b j

/-- `p_i_j = (p_i_j + p_i_j.t()) / 2.`: the symmetrised joint before
normalisation. -/
noncomputable def symJoint {bn k : Nat} (x y : Fin bn → Fin k → Real) :
    Fin k → Fin k → Real :=
  fun i j => (outerSum x y i j + outerSum x y j i) / 2

/-- `compute_joint(x_out, x_tf_out)`: symmetrise, then normalise by the total
sum (`p_i_j = p_i_j / p_i_j.sum()`). -/
noncomputable def compute_joint {bn k : Nat} (x y : Fin bn → Fin k → Real) :
    Fin k → Fin k → Real :=
  fun i j => symJoint x y i j / ∑ a, ∑ c, symJoint x y a c

/-- `IID_loss`'s `p_i = p_i_j.sum(dim=1)` (row marginals, computed before any
clamping). -/
noncomputable def IID_p_i {bn k : Nat} (x y : Fin bn → Fin k → Real) :
    Fin k → Real :=
  fun i => ∑ j, compute_joint x y i j

/-- `IID_loss`'s `p_j = p_i_j.sum(dim=0)` (column marginals, computed before
any clamping). -/
noncomputable def IID_p_j {bn k : Nat} (x y : Fin bn → Fin k → Real) :
    Fin k → Real :=
  fun j => ∑ i, compute_joint x y i j

/-- The in-place clamp `t[(t < EPS).data] = EPS` applied elementwise. -/
noncomputable def epsClamp (EPS v : Real) : Real := if v < EPS then EPS else v

/-- `sys.float_info.epsilon` for IEEE-754 doubles: `2 ** (-52)`. -/
noncomputable def floatEps : Real := 1 / 2 ^ 52

/-- `IID_loss(x_out, x_tf_out, lamb, EPS)`: clamp joint and marginals at
`EPS`, then `(- p_i_j * (log p_i_j - lamb * log p_j - lamb * log p_i)).sum()`. -/
noncomputable def IID_loss {bn k : Nat} (x y : Fin bn → Fin k → Real)
    (lamb EPS : Real) : Real :=
  ∑ i, ∑ j,
    -(epsClamp EPS (compute_joint x y i j) *
      (Real.log (epsClamp EPS (compute_joint x y i j)) -
        lamb * Real.log (epsClamp EPS (IID_p_j x y j)) -
        lamb * Real.log (epsClamp EPS (IID_p_i x y i))))

/-- `MutualInformationLoss.forward`'s `logits = F.log_softmax(output_batch /
self.T, dim=1)`. -/
noncomputable def MutualInformationLoss.logits {B c : Nat} (T : Real)
    (output_batch : Fin B → Fin c → Real) : Fin B → Fin c → Real :=
  fun b => logSoftmax (fun i => output_batch b i / T)

/-- `MutualInformationLoss._compute_joint`: the same symmetrise-and-normalise
computation as `compute_joint`, applied to the log-softmax outputs. -/
noncomputable def MutualInformationLoss.pij {B c : Nat} (T : Real)
    (x y : Fin B → Fin c → Real) : Fin c → Fin c → Real :=
  compute_joint (MutualInformationLoss.logits T x)
    (MutualInformationLoss.logits T y)

/-- `pi = pij.sum(dim=1)` (computed before the clamps). -/
noncomputable def MutualInformationLoss.p_i {B c : Nat} (T : Real)
    (x y : Fin B → Fin c → Real) : Fin c → Real :=
  fun i => ∑ j, MutualInformationLoss.pij T x y i j

/-- `pj = pij.sum(dim=0)` (computed before the clamps). -/
noncomputable def MutualInformationLoss.p_j {B c : Nat} (T : Real)
    (x y : Fin B → Fin c → Real) : Fin c → Real :=
  fun j => ∑ i, MutualInformationLoss.pij T x y i j

/-- `MutualInformationLoss.forward(output_batch, output_batch_aug, lamb,
EPS)`: clamp joint and marginals at `EPS`, then
`(- pij * (log pij - lamb * log pj - lamb * log pi)).sum()`. -/
noncomputable def MutualInformationLoss.forward {B c : Nat} (T : Real)
    (x y : Fin B → Fin c → Real) (lamb EPS : Real) : Real :=
  ∑ i, ∑ j,
    -(epsClamp EPS (MutualInformationLoss.pij T x y i j) *
      (Real.log (epsClamp EPS (MutualInformationLoss.pij T x y i j)) -
        lamb * Real.log (epsClamp EPS (MutualInformationLoss.p_j T x y j)) -
        lamb * Real.log (epsClamp EPS (MutualInformationLoss.p_i T x y i))))

/-- A concrete logit batch (`B = 2`, `c = 2`): rows `[log 3, 0]` and
`[0, log 3]`, whose softmax rows are `(3/4, 1/4)` and `(1/4, 3/4)`. -/
noncomputable def X3 : Fin 2 → Fin 2 → Real :=
  ![![Real.log 3, 0], ![0, Real.log 3]]

/-- Log-softmax value `log 3 - log 4 = log (3/4)` of the large entry of a row
of `X3`. -/
noncomputable def uX : Real := Real.log 3 - Real.log 4

/-- Log-softmax value `-log 4 = log (1/4)` of the small entry of a row of
`X3`. -/
noncomputable def vX : Real := -Real.log 4

/-- The diagonal entry of the normalised joint of `X3` with itself. -/
noncomputable def pX : Real := (uX ^ 2 + vX ^ 2) / (2 * (uX + vX) ^ 2)

/-- The off-diagonal entry of the normalised joint of `X3` with itself. -/
noncomputable def rX : Real := uX * vX / (uX + vX) ^ 2

/-- A coincident student/teacher batch: one row of logits `[0, 0]`, so the
student and teacher output distributions are both `(1/2, 1/2)`. -/
noncomputable def Z2 : Fin 1 → Fin 2 → Real := fun _ => ![0, 0]

end FedML

namespace FedML

/-! ### Theorems: flattening -/

theorem set_flat_params_aux_round_trip {α : Type} (ps : List (Param α))
    (pre rest : List α) (hwf : ∀ p ∈ ps, p.wf)
    (hrest : rest = get_flat_params_from ps) :
    set_flat_params_aux (pre ++ rest) ps pre.length = ps := by
  induction ps generalizing pre rest with
  | nil => rfl
  | cons p tl ih =>
      have hp : p.wf := hwf p (List.mem_cons_self _ _)
      have htl : ∀ q ∈ tl, q.wf := fun q hq => hwf q (List.mem_cons_of_mem _ hq)
      subst hrest
      have hflat : get_flat_params_from (p :: tl) =
          p.data ++ get_flat_params_from tl := by
        simp [get_flat_params_from]
      rw [hflat]
      show ({ p with data :=
          (((pre ++ (p.data ++ get_flat_params_from tl))).drop pre.length).take p.numel } ::
        set_flat_params_aux (pre ++ (p.data ++ get_flat_params_from tl)) tl
          (pre.length + p.numel)) = p :: tl
      have hdrop : ((pre ++ (p.data ++ get_flat_params_from tl))).drop pre.length =
          p.data ++ get_flat_params_from tl := List.drop_left _ _
      have htake : (p.data ++ get_flat_params_from tl).take p.numel = p.data := by
        rw [← hp]; exact List.take_left _ _
      have hhead : { p with data :=
          (((pre ++ (p.data ++ get_flat_params_from tl))).drop pre.length).take p.numel } = p := by
        rw [hdrop, htake]
      rw [hhead]
      have hlen : pre.length + p.numel = (pre ++ p.data).length := by
        rw [List.length_append, hp]
      have hassoc : pre ++ (p.data ++ get_flat_params_from tl) =
          (pre ++ p.data) ++ get_flat_params_from tl := by
        rw [List.append_assoc]
      rw [hlen, hassoc, ih (pre ++ p.data) _ htl rfl]

/-- C1: for every model whose parameter tensors are well formed (each stores
`numel` values), writing back the flattened vector with
`set_flat_params_to` restores every parameter exactly. -/
theorem flat_params_round_trip {α : Type} (ps : List (Param α))
    (hwf : ∀ p ∈ ps, p.wf) :
    set_flat_params_to ps (get_flat_params_from ps) = ps := by
  have h := set_flat_params_aux_round_trip ps [] (get_flat_params_from ps) hwf rfl
  simpa [set_flat_params_to] using h

/-- C1 witness: a concrete two-parameter model (a shape-`[2]` tensor and a
scalar tensor) round-trips. -/
theorem flat_params_round_trip_witness :
    (∀ p ∈ [Param.mk [2] [(1 : Int), 2], Param.mk [] [5]], p.wf) ∧
      set_flat_params_to [Param.mk [2] [(1 : Int), 2], Param.mk [] [5]]
          (get_flat_params_from [Param.mk [2] [(1 : Int), 2], Param.mk [] [5]]) =
        [Param.mk [2] [(1 : Int), 2], Param.mk [] [5]] :=
  ⟨by decide, flat_params_round_trip _ (by decide)⟩

theorem set_flat_final_ind_eq {α : Type} (ps : List (Param α)) (k : Nat) :
    set_flat_final_ind ps k = k + (ps.map Param.numel).sum := by
  induction ps generalizing k with
  | nil => simp [set_flat_final_ind]
  | cons p tl ih => simp [set_flat_final_ind, ih, Nat.add_assoc]

theorem set_flat_params_aux_take {α : Type} (ps : List (Param α))
    (flat : List α) (k N : Nat) (hN : k + (ps.map Param.numel).sum ≤ N) :
    set_flat_params_aux (flat.take N) ps k = set_flat_params_aux flat ps k := by
  induction ps generalizing k with
  | nil => rfl
  | cons p tl ih =>
      have hsum : k + (p.numel + (tl.map Param.numel).sum) ≤ N := by
        simpa [Nat.add_assoc] using hN
      have hk : k + p.numel ≤ N := by omega
      have hslice : ((flat.take N).drop k).take p.numel =
          (flat.drop k).take p.numel := by
        rw [List.drop_take]
        rw [List.take_take]
        congr 1
        omega
      have htl : k + p.numel + (tl.map Param.numel).sum ≤ N := by omega
      simp only [set_flat_params_aux, hslice, ih (k + p.numel) htl]

/-- C7: the flattened vector has length `∑ numel p`, and `set_flat_params_to`
consumes exactly that many leading entries of its input: the final
`prev_ind` equals `∑ numel p`, and the result only depends on the first
`∑ numel p` entries of the flat vector. -/
theorem flat_params_length_invariant {α : Type} (ps : List (Param α))
    (flat : List α) (hwf : ∀ p ∈ ps, p.wf) :
    (get_flat_params_from ps).length = (ps.map Param.numel).sum ∧
    set_flat_final_ind ps 0 = (ps.map Param.numel).sum ∧
    set_flat_params_to ps (flat.take ((ps.map Param.numel).sum)) =
      set_flat_params_to ps flat := by
  refine ⟨?_, ?_, ?_⟩
  · induction ps with
    | nil => rfl
    | cons p tl ih =>
        have hp : p.wf := hwf p (List.mem_cons_self _ _)
        have htl := ih (fun q hq => hwf q (List.mem_cons_of_mem _ hq))
        have hcons : get_flat_params_from (p :: tl) =
            p.data ++ get_flat_params_from tl := by
          simp [get_flat_params_from]
        rw [hcons, List.length_append, List.map_cons, List.sum_cons, hp, htl]
  · simpa using set_flat_final_ind_eq ps 0
  · exact set_flat_params_aux_take ps flat 0
      ((ps.map Param.numel).sum) (by omega)

/-- C7 witness: on the concrete two-parameter model, the flat vector has
length `3 = 2 + 1`, the final offset is `3`, and only the first `3` entries
of the written vector matter. -/
theorem flat_params_length_invariant_witness :
    (∀ p ∈ [Param.mk [2] [(1 : Int), 2], Param.mk [] [5]], p.wf) ∧
    ((get_flat_params_from [Param.mk [2] [(1 : Int), 2], Param.mk [] [5]]).length =
        (([Param.mk [2] [(1 : Int), 2], Param.mk ([] : List Nat) [5]].map Param.numel).sum) ∧
      set_flat_final_ind [Param.mk [2] [(1 : Int), 2], Param.mk [] [5]] 0 =
        (([Param.mk [2] [(1 : Int), 2], Param.mk ([] : List Nat) [5]].map Param.numel).sum) ∧
      set_flat_params_to [Param.mk [2] [(1 : Int), 2], Param.mk [] [5]]
          (([(10 : Int), 20, 30, 40, 50]).take
            (([Param.mk [2] [(1 : Int), 2], Param.mk ([] : List Nat) [5]].map Param.numel).sum)) =
        set_flat_params_to [Param.mk [2] [(1 : Int), 2], Param.mk [] [5]]
          [(10 : Int), 20, 30, 40, 50]) :=
  ⟨by decide, flat_params_length_invariant _ [(10 : Int), 20, 30, 40, 50] (by decide)⟩

/-! ### Theorems: RunningAverage -/

theorem runningAverage_foldl (vs : List ℚ) (r : RunningAverage) :
    (vs.foldl RunningAverage.update r).steps = r.steps + vs.length ∧
    (vs.foldl RunningAverage.update r).total = r.total + vs.sum := by
  induction vs generalizing r with
  | nil => simp
  | cons v tl ih =>
      have h := ih (r.update v)
      simp only [List.foldl_cons, List.length_cons, List.sum_cons] at h ⊢
      refine ⟨?_, ?_⟩
      · rw [h.1]; simp [RunningAverage.update]; omega
      · rw [h.2]; simp [RunningAverage.update]; ring

/-- C2: after applying the updates `v1..vn` (`n ≥ 1`) to a freshly
constructed `RunningAverage`, `value()` returns the arithmetic mean. -/
theorem runningAverage_value_mean (vs : List ℚ) (h : vs ≠ []) :
    (vs.foldl RunningAverage.update RunningAverage.init).value =
      some (vs.sum / (vs.length : ℚ)) := by
  have hf := runningAverage_foldl vs RunningAverage.init
  have hlen : vs.length ≠ 0 := by
    intro h0; exact h (List.eq_nil_of_length_eq_zero h0)
  unfold RunningAverage.value pydiv
  rw [hf.1, hf.2]
  simp only [RunningAverage.init, Nat.zero_add, zero_add]
  rw [if_neg (by exact_mod_cast hlen)]

/-- C2 witness: the docstring's example, `update(2); update(4)` gives mean
`3`. -/
theorem runningAverage_value_mean_witness :
    [(2 : ℚ), 4] ≠ [] ∧
    ([(2 : ℚ), 4].foldl RunningAverage.update RunningAverage.init).value =
      some ([(2 : ℚ), 4].sum / ([(2 : ℚ), 4].length : ℚ)) :=
  ⟨by decide, runningAverage_value_mean [(2 : ℚ), 4] (by decide)⟩

/-- C9: `value()` on a fresh `RunningAverage` divides by `float(0)` and hence
raises `ZeroDivisionError` (modelled as `none`): there is no guard for the
empty case. -/
theorem runningAverage_value_fresh_raises :
    RunningAverage.init.value = none := by decide

/-! ### Theorems: get_state_dict -/

/-- C5: the direct load's result is returned unchanged on success; an
`AssertionError` from the direct load (and only that) triggers the
CPU-mapped retry, whose result is returned; any other exception
propagates. -/
theorem get_state_dict_spec {σ : Type} (load : Bool → Except PyError σ) :
    (∀ s, load false = Except.ok s → get_state_dict load = Except.ok s) ∧
    (load false = Except.error PyError.assertionError →
      get_state_dict load = load true) ∧
    (∀ e, e ≠ PyError.assertionError → load false = Except.error e →
      get_state_dict load = Except.error e) := by
  refine ⟨?_, ?_, ?_⟩
  · intro s hs
    unfold get_state_dict
    rw [hs]
  · intro h
    unfold get_state_dict
    rw [h]
  · intro e he h
    unfold get_state_dict
    rw [h]
    cases e with
    | assertionError => exact absurd rfl he
    | otherError c => rfl

/-- C5 witness: the three branches on concrete load behaviours. -/
theorem get_state_dict_spec_witness :
    get_state_dict (fun _ => Except.ok (0 : Nat)) = Except.ok 0 ∧
    get_state_dict (fun b => if b then Except.ok (1 : Nat)
      else Except.error PyError.assertionError) =
      (fun b => if b then Except.ok (1 : Nat)
        else Except.error PyError.assertionError) true ∧
    get_state_dict (fun _ => (Except.error (PyError.otherError 5) : Except PyError Nat)) =
      Except.error (PyError.otherError 5) :=
  ⟨(get_state_dict_spec _).1 0 rfl,
   (get_state_dict_spec _).2.1 rfl,
   (get_state_dict_spec _).2.2 (PyError.otherError 5) (by decide) rfl⟩

/-! ### Theorems: FedOpt dispatch -/

/-- C6: `FedML_FedOpt_distributed` dispatches to the server role exactly for
`process_id = 0` (with `worker_num = size - 1`), and to the client role with
`client_index = process_id - 1` for every other rank. -/
theorem fedopt_dispatch (process_id worker_number : Int) :
    ((FedML_FedOpt_distributed process_id worker_number).isServer = true ↔
      process_id = 0) ∧
    (process_id = 0 → FedML_FedOpt_distributed process_id worker_number =
      FedOptRole.server (worker_number - 1)) ∧
    (process_id ≠ 0 → FedML_FedOpt_distributed process_id worker_number =
      FedOptRole.client (process_id - 1)) := by
  unfold FedML_FedOpt_distributed init_server_worker_num init_client_client_index
  by_cases h : process_id = 0
  · subst h
    simp [FedOptRole.isServer]
  · rw [if_neg h]
    simp [FedOptRole.isServer, h]

/-- C6 witness: in a 5-process job, rank 0 becomes the server over 4 workers
and rank 3 becomes client 2. -/
theorem fedopt_dispatch_witness :
    FedML_FedOpt_distributed 0 5 = FedOptRole.server 4 ∧
    FedML_FedOpt_distributed 3 5 = FedOptRole.client 2 :=
  ⟨(fedopt_dispatch 0 5).2.1 rfl, (fedopt_dispatch 3 5).2.2 (by decide)⟩

/-! ### Basic facts about softmax and log-softmax -/

theorem sum_exp_pos {n : Nat} (x : Fin n → Real) (i0 : Fin n) :
    0 < ∑ j, Real.exp (x j) :=
  Finset.sum_pos (fun j _ => Real.exp_pos _) ⟨i0, Finset.mem_univ i0⟩

theorem softmax_pos {n : Nat} (x : Fin n → Real) (i : Fin n) :
    0 < softmax x i :=
  div_pos (Real.exp_pos _) (sum_exp_pos x i)

theorem softmax_le_one {n : Nat} (x : Fin n → Real) (i : Fin n) :
    softmax x i ≤ 1 := by
  unfold softmax
  rw [div_le_one (sum_exp_pos x i)]
  exact Finset.single_le_sum (f := fun j => Real.exp (x j))
    (fun j _ => (Real.exp_pos _).le) (Finset.mem_univ i)

theorem softmax_sum_one {n : Nat} (x : Fin n → Real) (i0 : Fin n) :
    (∑ i, softmax x i) = 1 := by
  unfold softmax
  rw [← Finset.sum_div]
  exact div_self (sum_exp_pos x i0).ne'

theorem logSoftmax_eq_log_softmax {n : Nat} (x : Fin n → Real) (i : Fin n) :
    logSoftmax x i = Real.log (softmax x i) := by
  unfold logSoftmax softmax
  rw [Real.log_div (Real.exp_pos _).ne' (sum_exp_pos x i).ne', Real.log_exp]

theorem logSoftmax_nonpos {n : Nat} (x : Fin n → Real) (i : Fin n) :
    logSoftmax x i ≤ 0 := by
  rw [logSoftmax_eq_log_softmax]
  exact Real.log_nonpos (softmax_pos x i).le (softmax_le_one x i)

/-- Pointwise Gibbs inequality: `a - b ≤ a * (log a - log b)` for positive
`a`, `b`. -/
theorem sub_le_mul_log_sub {a b : Real} (ha : 0 < a) (hb : 0 < b) :
    a - b ≤ a * (Real.log a - Real.log b) := by
  have h := Real.log_le_sub_one_of_pos (show 0 < b / a from div_pos hb ha)
  rw [Real.log_div hb.ne' ha.ne'] at h
  have h2 := mul_le_mul_of_nonneg_left h ha.le
  have h3 : a * (b / a - 1) = b - a := by
    field_simp
  rw [h3] at h2
  nlinarith

/-- Strict pointwise Gibbs inequality when `a ≠ b`. -/
theorem sub_lt_mul_log_sub {a b : Real} (ha : 0 < a) (hb : 0 < b)
    (hne : a ≠ b) : a - b < a * (Real.log a - Real.log b) := by
  have hba : b / a ≠ 1 := by
    intro hcontra
    apply hne
    have h1 := (div_eq_iff ha.ne').mp hcontra
    rw [one_mul] at h1
    exact h1.symm
  have h := Real.log_lt_sub_one_of_pos (div_pos hb ha) hba
  rw [Real.log_div hb.ne' ha.ne'] at h
  have h2 := mul_lt_mul_of_pos_left h ha
  have h3 : a * (b / a - 1) = b - a := by
    field_simp
  rw [h3] at h2
  nlinarith

theorem le_epsClamp (EPS v : Real) : EPS ≤ epsClamp EPS v := by
  unfold epsClamp
  split
  · exact le_refl _
  · exact le_of_not_lt (by assumption)

theorem epsClamp_eq_of_le {EPS v : Real} (h : EPS ≤ v) : epsClamp EPS v = v := by
  unfold epsClamp
  exact if_neg (not_lt.mpr h)

/-! ### Theorems: CE formula (C8) -/

/-- C8: `CE_Loss.forward` computes exactly the spec's temperature-scaled soft
cross-entropy `-T^2 * sum(softmax(teacher/T) * log_softmax(student/T)) / B`. -/
theorem ce_loss_eq_spec_formula {B n : Nat} (T : Real)
    (s t : Fin B → Fin n → Real) :
    CE_Loss.forward T s t = specSoftCrossEntropy T s t := by
  unfold CE_Loss.forward specSoftCrossEntropy
  have h : (∑ b, ∑ i, logSoftmax (fun j => s b j / T) i *
        softmax (fun j => t b j / T) i)
      = ∑ b, ∑ i, softmax (fun j => t b j / T) i *
        logSoftmax (fun j => s b j / T) i := by
    apply Finset.sum_congr rfl
    intro b _
    apply Finset.sum_congr rfl
    intro i _
    ring
  rw [h]
  ring

/-! ### Theorems: compute_joint (C10) -/

theorem symJoint_total {bn k : Nat} (x y : Fin bn → Fin k → Real) :
    (∑ i, ∑ j, symJoint x y i j) = ∑ i, ∑ j, outerSum x y i j := by
  have hswap : (∑ i, ∑ j, outerSum x y j i) = ∑ i, ∑ j, outerSum x y i j :=
    Finset.sum_comm
  have hin : ∀ i : Fin k, (∑ j, symJoint x y i j)
      = ((∑ j, outerSum x y i j) + (∑ j, outerSum x y j i)) / 2 := by
    intro i
    unfold symJoint
    rw [← Finset.sum_div, Finset.sum_add_distrib]
  rw [Finset.sum_congr rfl (fun i _ => hin i), ← Finset.sum_div,
    Finset.sum_add_distrib, hswap]
  ring

theorem compute_joint_sum_one {bn k : Nat} (x y : Fin bn → Fin k → Real)
    (hS : (∑ i, ∑ j, symJoint x y i j) ≠ 0) :
    (∑ i, ∑ j, compute_joint x y i j) = 1 := by
  unfold compute_joint
  have hdiv : (∑ i, ∑ j, symJoint x y i j / ∑ a, ∑ c, symJoint x y a c)
      = (∑ i, ∑ j, symJoint x y i j) / (∑ a, ∑ c, symJoint x y a c) := by
    simp only [Finset.sum_div]
  rw [hdiv]
  exact div_self hS

/-- C10: for same-shaped inputs whose outer-product sum is nonzero,
`compute_joint` returns an exactly symmetric matrix whose entries sum
to 1. -/
theorem compute_joint_symm_sum_one {bn k : Nat} (x y : Fin bn → Fin k → Real)
    (h : (∑ i, ∑ j, outerSum x y i j) ≠ 0) :
    (∀ i j, compute_joint x y i j = compute_joint x y j i) ∧
    (∑ i, ∑ j, compute_joint x y i j) = 1 := by
  have hS : (∑ i, ∑ j, symJoint x y i j) ≠ 0 := by
    rw [symJoint_total]
    exact h
  constructor
  · intro i j
    unfold compute_joint symJoint
    rw [add_comm (outerSum x y i j) (outerSum x y j i)]
  · exact compute_joint_sum_one x y hS

/-- C10 witness: the all-ones `1 × 1` input has outer-product sum `1` and
joint matrix `[[1]]`. -/
theorem compute_joint_symm_sum_one_witness :
    ((∑ i : Fin 1, ∑ j : Fin 1,
        outerSum (fun (_ : Fin 1) (_ : Fin 1) => (1 : Real))
          (fun _ _ => 1) i j) ≠ 0) ∧
    ((∀ i j, compute_joint (fun (_ : Fin 1) (_ : Fin 1) => (1 : Real))
          (fun _ _ => 1) i j =
        compute_joint (fun (_ : Fin 1) (_ : Fin 1) => (1 : Real))
          (fun _ _ => 1) j i) ∧
      (∑ i, ∑ j, compute_joint (fun (_ : Fin 1) (_ : Fin 1) => (1 : Real))
        (fun _ _ => 1) i j) = 1) :=
  ⟨by simp [outerSum], compute_joint_symm_sum_one _ _ (by simp [outerSum])⟩

/-! ### Sign of the distillation losses (C3) -/

theorem KL_target_pos {B n : Nat} (T : Real) (t : Fin B → Fin n → Real)
    (b : Fin B) (i : Fin n) : 0 < KL_Loss.target T t b i := by
  have hp := softmax_pos (fun j => t b j / T) i
  unfold KL_Loss.target
  nlinarith

theorem KL_loss_nonneg {B n : Nat} (T : Real) (s t : Fin B → Fin n → Real) :
    0 ≤ KL_Loss.forward T s t := by
  unfold KL_Loss.forward
  apply mul_nonneg (mul_self_nonneg T)
  apply div_nonneg ?_ (Nat.cast_nonneg B)
  apply Finset.sum_nonneg
  intro b _
  rcases isEmpty_or_nonempty (Fin n) with hn | hn
  · simp [Finset.univ_eq_empty]
  · obtain ⟨i0⟩ := hn
    have hsum_t : (∑ i, softmax (fun j => t b j / T) i) = 1 :=
      softmax_sum_one _ i0
    have hsum_s : (∑ i, softmax (fun j => s b j / T) i) = 1 :=
      softmax_sum_one _ i0
    have h1 : (0 : Real) ≤
        ∑ i, (KL_Loss.target T t b i - softmax (fun j => s b j / T) i) := by
      have hdist : (∑ i, (KL_Loss.target T t b i -
          softmax (fun j => s b j / T) i))
          = (∑ i, KL_Loss.target T t b i) -
            ∑ i, softmax (fun j => s b j / T) i := by
        simp [Finset.sum_sub_distrib]
      have htgt : (∑ i, KL_Loss.target T t b i)
          = (∑ i, softmax (fun j => t b j / T) i) + n * (1 / 10 ^ 7) := by
        unfold KL_Loss.target
        rw [Finset.sum_add_distrib, Finset.sum_const, Finset.card_univ]
        simp [Fintype.card_fin, nsmul_eq_mul]
      have hn7 : (0 : Real) ≤ (n : Real) * (1 / 10 ^ 7) := by positivity
      rw [hdist, htgt, hsum_t, hsum_s]
      linarith
    have h2 : (∑ i, (KL_Loss.target T t b i -
        softmax (fun j => s b j / T) i)) ≤
        ∑ i, KL_Loss.target T t b i *
          (Real.log (KL_Loss.target T t b i) -
            logSoftmax (fun j => s b j / T) i) := by
      apply Finset.sum_le_sum
      intro i _
      rw [logSoftmax_eq_log_softmax]
      exact sub_le_mul_log_sub (KL_target_pos T t b i) (softmax_pos _ i)
    linarith

theorem CE_loss_nonneg {B n : Nat} (T : Real) (s t : Fin B → Fin n → Real) :
    0 ≤ CE_Loss.forward T s t := by
  unfold CE_Loss.forward
  have hS : (∑ b, ∑ i, logSoftmax (fun j => s b j / T) i *
      softmax (fun j => t b j / T) i) ≤ 0 := by
    apply Finset.sum_nonpos
    intro b _
    apply Finset.sum_nonpos
    intro i _
    exact mul_nonpos_iff.mpr
      (Or.inr ⟨logSoftmax_nonpos _ i, (softmax_pos _ i).le⟩)
  have heq : -T * T * (∑ b, ∑ i, logSoftmax (fun j => s b j / T) i *
        softmax (fun j => t b j / T) i) / (B : Real)
      = T * T * (-(∑ b, ∑ i, logSoftmax (fun j => s b j / T) i *
        softmax (fun j => t b j / T) i)) / (B : Real) := by
    ring
  rw [heq]
  apply div_nonneg ?_ (Nat.cast_nonneg B)
  exact mul_nonneg (mul_self_nonneg T) (by linarith)

theorem MI_loss_nonpos_of_noclamp {B c : Nat} (T : Real)
    (x y : Fin B → Fin c → Real)
    (hq : ∀ i j, floatEps ≤ MutualInformationLoss.pij T x y i j)
    (ha : ∀ i, floatEps ≤ MutualInformationLoss.p_i T x y i)
    (hb : ∀ j, floatEps ≤ MutualInformationLoss.p_j T x y j) :
    MutualInformationLoss.forward T x y 1 floatEps ≤ 0 := by
  have heps : (0 : Real) < floatEps := by
    unfold floatEps
    positivity
  have hqpos : ∀ i j, 0 < MutualInformationLoss.pij T x y i j :=
    fun i j => lt_of_lt_of_le heps (hq i j)
  have hapos : ∀ i, 0 < MutualInformationLoss.p_i T x y i :=
    fun i => lt_of_lt_of_le heps (ha i)
  have hbpos : ∀ j, 0 < MutualInformationLoss.p_j T x y j :=
    fun j => lt_of_lt_of_le heps (hb j)
  have hQ : ∀ i j, epsClamp floatEps (MutualInformationLoss.pij T x y i j) =
      MutualInformationLoss.pij T x y i j :=
    fun i j => epsClamp_eq_of_le (hq i j)
  have hA : ∀ i, epsClamp floatEps (MutualInformationLoss.p_i T x y i) =
      MutualInformationLoss.p_i T x y i :=
    fun i => epsClamp_eq_of_le (ha i)
  have hB : ∀ j, epsClamp floatEps (MutualInformationLoss.p_j T x y j) =
      MutualInformationLoss.p_j T x y j :=
    fun j => epsClamp_eq_of_le (hb j)
  unfold MutualInformationLoss.forward
  simp only [hQ, hA, hB, one_mul]
  rcases isEmpty_or_nonempty (Fin c) with hc | hc
  · simp [Finset.univ_eq_empty]
  · obtain ⟨i0⟩ := hc
    have hS : (∑ a, ∑ b,
        symJoint (MutualInformationLoss.logits T x)
          (MutualInformationLoss.logits T y) a b) ≠ 0 := by
      intro h0
      have hzero : MutualInformationLoss.pij T x y i0 i0 = 0 := by
        unfold MutualInformationLoss.pij compute_joint
        rw [h0, div_zero]
      have := hq i0 i0
      rw [hzero] at this
      linarith
    have hsum1 : (∑ i, ∑ j, MutualInformationLoss.pij T x y i j) = 1 := by
      unfold MutualInformationLoss.pij
      exact compute_joint_sum_one _ _ hS
    have hsumA : (∑ i, MutualInformationLoss.p_i T x y i) = 1 := by
      unfold MutualInformationLoss.p_i
      exact hsum1
    have hsumB : (∑ j, MutualInformationLoss.p_j T x y j) = 1 := by
      unfold MutualInformationLoss.p_j
      rw [Finset.sum_comm]
      exact hsum1
    have hpt : ∀ i j, MutualInformationLoss.pij T x y i j -
        MutualInformationLoss.p_i T x y i * MutualInformationLoss.p_j T x y j ≤
        MutualInformationLoss.pij T x y i j *
          (Real.log (MutualInformationLoss.pij T x y i j) -
            Real.log (MutualInformationLoss.p_j T x y j) -
            Real.log (MutualInformationLoss.p_i T x y i)) := by
      intro i j
      have hab : 0 < MutualInformationLoss.p_i T x y i *
          MutualInformationLoss.p_j T x y j := mul_pos (hapos i) (hbpos j)
      have h := sub_le_mul_log_sub (hqpos i j) hab
      rw [Real.log_mul (hapos i).ne' (hbpos j).ne'] at h
      nlinarith [h]
    have hsum0 : (∑ i, ∑ j, (MutualInformationLoss.pij T x y i j -
        MutualInformationLoss.p_i T x y i *
          MutualInformationLoss.p_j T x y j)) = 0 := by
      have hAB : (∑ i, ∑ j, MutualInformationLoss.p_i T x y i *
          MutualInformationLoss.p_j T x y j) = 1 := by
        rw [← Finset.sum_mul_sum, hsumA, hsumB]
        norm_num
      have hdist : (∑ i, ∑ j, (MutualInformationLoss.pij T x y i j -
          MutualInformationLoss.p_i T x y i *
            MutualInformationLoss.p_j T x y j))
          = (∑ i, ∑ j, MutualInformationLoss.pij T x y i j) -
            ∑ i, ∑ j, MutualInformationLoss.p_i T x y i *
              MutualInformationLoss.p_j T x y j := by
        simp [Finset.sum_sub_distrib]
      rw [hdist, hsum1, hAB]
      norm_num
    have hmain : (0 : Real) ≤ ∑ i, ∑ j,
        MutualInformationLoss.pij T x y i j *
          (Real.log (MutualInformationLoss.pij T x y i j) -
            Real.log (MutualInformationLoss.p_j T x y j) -
            Real.log (MutualInformationLoss.p_i T x y i)) := by
      rw [← hsum0]
      exact Finset.sum_le_sum
        (fun i _ => Finset.sum_le_sum (fun j _ => hpt i j))
    have hneg : (∑ i, ∑ j,
        -(MutualInformationLoss.pij T x y i j *
          (Real.log (MutualInformationLoss.pij T x y i j) -
            Real.log (MutualInformationLoss.p_j T x y j) -
            Real.log (MutualInformationLoss.p_i T x y i))))
        = -(∑ i, ∑ j, MutualInformationLoss.pij T x y i j *
          (Real.log (MutualInformationLoss.pij T x y i j) -
            Real.log (MutualInformationLoss.p_j T x y j) -
            Real.log (MutualInformationLoss.p_i T x y i))) := by
      simp [Finset.sum_neg_distrib]
    rw [hneg]
    linarith

/-! #### Concrete evaluation at the batch `X3` -/

theorem uX_le : uX ≤ -(1 / 4) := by
  unfold uX
  have h34 : Real.log (3 / 4) = Real.log 3 - Real.log 4 :=
    Real.log_div (by norm_num) (by norm_num)
  have h := Real.log_le_sub_one_of_pos (show (0 : Real) < 3 / 4 by norm_num)
  linarith [h34]

theorem uX_ge : -(1 / 3) ≤ uX := by
  unfold uX
  have h43 : Real.log (4 / 3) = Real.log 4 - Real.log 3 :=
    Real.log_div (by norm_num) (by norm_num)
  have h := Real.log_le_sub_one_of_pos (show (0 : Real) < 4 / 3 by norm_num)
  linarith [h43]

theorem vX_le : vX ≤ -(3 / 4) := by
  unfold vX
  have h := Real.log_le_sub_one_of_pos (show (0 : Real) < (4 : Real)⁻¹ by norm_num)
  rw [Real.log_inv] at h
  linarith

theorem vX_ge : -3 ≤ vX := by
  unfold vX
  have h := Real.log_le_sub_one_of_pos (show (0 : Real) < 4 by norm_num)
  linarith

theorem uvX_sum_le : uX + vX ≤ -1 := by linarith [uX_le, vX_le]

theorem uvX_sum_ge : -(10 / 3) ≤ uX + vX := by linarith [uX_ge, vX_ge]

theorem uvX_sq_pos : (0 : Real) < (uX + vX) ^ 2 := by
  nlinarith [uvX_sum_le]

theorem uvX_sq_le : (uX + vX) ^ 2 ≤ 100 / 9 := by
  nlinarith [uvX_sum_le, uvX_sum_ge]

theorem uvX_prod_ge : 3 / 16 ≤ uX * vX := by
  have h1 : (0 : Real) ≤ -uX - 1 / 4 := by linarith [uX_le]
  have h2 : (0 : Real) ≤ -vX - 3 / 4 := by linarith [vX_le]
  nlinarith [mul_nonneg h1 h2, uX_le, vX_le]

theorem pX_gt : 1 / 4 < pX := by
  unfold pX
  rw [lt_div_iff (by linarith [uvX_sq_pos] : (0 : Real) < 2 * (uX + vX) ^ 2)]
  have hgap : 5 / 12 ≤ uX - vX := by linarith [uX_ge, vX_le]
  nlinarith [hgap]

theorem rX_ge : 27 / 1600 ≤ rX := by
  unfold rX
  rw [le_div_iff uvX_sq_pos]
  linarith [uvX_sq_le, uvX_prod_ge]

theorem pX_rX_half : pX + rX = 1 / 2 := by
  have hne : ((uX + vX) ^ 2 : Real) ≠ 0 := uvX_sq_pos.ne'
  have hne2 : (2 * (uX + vX) ^ 2 : Real) ≠ 0 := by
    intro h0
    apply hne
    linarith [h0]
  unfold pX rX
  rw [div_add_div _ _ hne2 hne,
    div_eq_div_iff (mul_ne_zero hne2 hne) (by norm_num : (2 : Real) ≠ 0)]
  ring

theorem lsm_row1 (i : Fin 2) :
    logSoftmax ![Real.log 3, (0 : Real)] i = ![uX, vX] i := by
  have hsum : (∑ j, Real.exp ((![Real.log 3, (0 : Real)]) j)) = 4 := by
    rw [Fin.sum_univ_two]
    show Real.exp (Real.log 3) + Real.exp 0 = 4
    rw [Real.exp_log (by norm_num), Real.exp_zero]
    norm_num
  fin_cases i
  · show (![Real.log 3, (0 : Real)]) 0 -
        Real.log (∑ j, Real.exp ((![Real.log 3, (0 : Real)]) j)) = uX
    rw [hsum]
    simp [uX]
  · show (![Real.log 3, (0 : Real)]) 1 -
        Real.log (∑ j, Real.exp ((![Real.log 3, (0 : Real)]) j)) = vX
    rw [hsum]
    simp [vX]

theorem lsm_row2 (i : Fin 2) :
    logSoftmax ![(0 : Real), Real.log 3] i = ![vX, uX] i := by
  have hsum : (∑ j, Real.exp ((![(0 : Real), Real.log 3]) j)) = 4 := by
    rw [Fin.sum_univ_two]
    show Real.exp 0 + Real.exp (Real.log 3) = 4
    rw [Real.exp_log (by norm_num), Real.exp_zero]
    norm_num
  fin_cases i
  · show (![(0 : Real), Real.log 3]) 0 -
        Real.log (∑ j, Real.exp ((![(0 : Real), Real.log 3]) j)) = vX
    rw [hsum]
    simp [vX]
  · show (![(0 : Real), Real.log 3]) 1 -
        Real.log (∑ j, Real.exp ((![(0 : Real), Real.log 3]) j)) = uX
    rw [hsum]
    simp [uX]

theorem X3_logits :
    MutualInformationLoss.logits 1 X3 = ![![uX, vX], ![vX, uX]] := by
  funext b i
  have hb0 : (fun i => X3 0 i / 1) = ![Real.log 3, (0 : Real)] := by
    funext i
    fin_cases i <;> simp [X3]
  have hb1 : (fun i => X3 1 i / 1) = ![(0 : Real), Real.log 3] := by
    funext i
    fin_cases i <;> simp [X3]
  unfold MutualInformationLoss.logits
  fin_cases b
  · show logSoftmax (fun i => X3 0 i / 1) i = (![![uX, vX], ![vX, uX]]) 0 i
    rw [hb0]
    simpa using lsm_row1 i
  · show logSoftmax (fun i => X3 1 i / 1) i = (![![uX, vX], ![vX, uX]]) 1 i
    rw [hb1]
    simpa using lsm_row2 i

theorem X3_outer (i j : Fin 2) :
    outerSum (MutualInformationLoss.logits 1 X3)
        (MutualInformationLoss.logits 1 X3) i j
    = ![![uX ^ 2 + vX ^ 2, 2 * (uX * vX)],
        ![2 * (uX * vX), uX ^ 2 + vX ^ 2]] i j := by
  rw [X3_logits]
  unfold outerSum
  rw [Fin.sum_univ_two]
  fin_cases i <;> fin_cases j <;> simp <;> ring

theorem X3_symTotal :
    (∑ a, ∑ c, symJoint (MutualInformationLoss.logits 1 X3)
      (MutualInformationLoss.logits 1 X3) a c) = 2 * (uX + vX) ^ 2 := by
  unfold symJoint
  simp only [X3_outer]
  simp [Fin.sum_univ_two]
  ring

theorem X3_pij (i j : Fin 2) :
    MutualInformationLoss.pij 1 X3 X3 i j = ![![pX, rX], ![rX, pX]] i j := by
  unfold MutualInformationLoss.pij compute_joint
  rw [X3_symTotal]
  unfold symJoint
  rw [X3_outer i j, X3_outer j i]
  have hne : ((uX + vX) ^ 2 : Real) ≠ 0 := uvX_sq_pos.ne'
  fin_cases i <;> fin_cases j <;>
    simp [pX, rX] <;> field_simp <;> ring

theorem X3_p_i (i : Fin 2) : MutualInformationLoss.p_i 1 X3 X3 i = 1 / 2 := by
  unfold MutualInformationLoss.p_i
  rw [Fin.sum_univ_two, X3_pij i 0, X3_pij i 1]
  fin_cases i <;> simp <;> linarith [pX_rX_half]

theorem X3_p_j (j : Fin 2) : MutualInformationLoss.p_j 1 X3 X3 j = 1 / 2 := by
  unfold MutualInformationLoss.p_j
  rw [Fin.sum_univ_two, X3_pij 0 j, X3_pij 1 j]
  fin_cases j <;> simp <;> linarith [pX_rX_half]

theorem floatEps_le_pX : floatEps ≤ pX := by
  have h : (1 : Real) / 2 ^ 52 ≤ 1 / 4 := by norm_num
  unfold floatEps
  linarith [pX_gt]

theorem floatEps_le_rX : floatEps ≤ rX := by
  have h : (1 : Real) / 2 ^ 52 ≤ 27 / 1600 := by norm_num
  unfold floatEps
  linarith [rX_ge]

theorem floatEps_le_half : floatEps ≤ (1 : Real) / 2 := by
  unfold floatEps
  norm_num

theorem X3_noclamp :
    (∀ i j, floatEps ≤ MutualInformationLoss.pij 1 X3 X3 i j) ∧
    (∀ i, floatEps ≤ MutualInformationLoss.p_i 1 X3 X3 i) ∧
    (∀ j, floatEps ≤ MutualInformationLoss.p_j 1 X3 X3 j) := by
  refine ⟨?_, ?_, ?_⟩
  · intro i j
    rw [X3_pij i j]
    fin_cases i <;> fin_cases j <;> simp <;>
      first | exact floatEps_le_pX | exact floatEps_le_rX
  · intro i
    rw [X3_p_i i]
    exact floatEps_le_half
  · intro j
    rw [X3_p_j j]
    exact floatEps_le_half

theorem X3_MI_neg : MutualInformationLoss.forward 1 X3 X3 1 floatEps < 0 := by
  unfold MutualInformationLoss.forward
  simp only [one_mul, X3_p_i, X3_p_j, X3_pij]
  simp only [Fin.sum_univ_two, Matrix.cons_val_zero, Matrix.cons_val_one,
    Matrix.head_cons]
  simp only [epsClamp_eq_of_le floatEps_le_pX, epsClamp_eq_of_le floatEps_le_rX,
    epsClamp_eq_of_le floatEps_le_half]
  have hlog14 : Real.log ((1 : Real) / 4) =
      Real.log ((1 : Real) / 2) + Real.log ((1 : Real) / 2) := by
    rw [← Real.log_mul (by norm_num) (by norm_num)]
    norm_num
  have heq : ∀ a : Real, a - Real.log ((1 : Real) / 2) -
      Real.log ((1 : Real) / 2) = a - Real.log ((1 : Real) / 4) := by
    intro a
    rw [hlog14]
    ring
  simp only [heq]
  have hterm_p : pX - 1 / 4 < pX * (Real.log pX - Real.log (1 / 4)) :=
    sub_lt_mul_log_sub (by linarith [pX_gt]) (by norm_num) (ne_of_gt pX_gt)
  have hterm_r : rX - 1 / 4 ≤ rX * (Real.log rX - Real.log (1 / 4)) :=
    sub_le_mul_log_sub (by linarith [rX_ge]) (by norm_num)
  linarith [hterm_p, hterm_r, pX_rX_half]

theorem Z2_softmax (b : Fin 1) (i : Fin 2) :
    softmax (fun j => Z2 b j / 1) i = 1 / 2 := by
  have hrow : (fun j => Z2 b j / 1) = ![(0 : Real), 0] := by
    funext j
    fin_cases j <;> simp [Z2]
  rw [hrow]
  unfold softmax
  have hsum : (∑ j, Real.exp ((![(0 : Real), 0]) j)) = 2 := by
    rw [Fin.sum_univ_two]
    show Real.exp 0 + Real.exp 0 = 2
    rw [Real.exp_zero]
    norm_num
  rw [hsum]
  fin_cases i <;> simp [Real.exp_zero]

theorem Z2_logSoftmax (b : Fin 1) (i : Fin 2) :
    logSoftmax (fun j => Z2 b j / 1) i = -Real.log 2 := by
  have hrow : (fun j => Z2 b j / 1) = ![(0 : Real), 0] := by
    funext j
    fin_cases j <;> simp [Z2]
  rw [hrow]
  unfold logSoftmax
  have hsum : (∑ j, Real.exp ((![(0 : Real), 0]) j)) = 2 := by
    rw [Fin.sum_univ_two]
    show Real.exp 0 + Real.exp 0 = 2
    rw [Real.exp_zero]
    norm_num
  rw [hsum]
  fin_cases i <;> simp

theorem KL_coincident_pos : 0 < KL_Loss.forward 1 Z2 Z2 := by
  have htgt : ∀ (b : Fin 1) (i : Fin 2),
      KL_Loss.target 1 Z2 b i = 1 / 2 + 1 / 10 ^ 7 := by
    intro b i
    unfold KL_Loss.target
    rw [Z2_softmax b i]
  unfold KL_Loss.forward
  simp only [Fin.sum_univ_one, Fin.sum_univ_two, htgt, Z2_logSoftmax]
  simp only [sub_neg_eq_add, Nat.cast_one, div_one]
  have hpos : 0 < Real.log (1 / 2 + 1 / 10 ^ 7) + Real.log 2 := by
    rw [← Real.log_mul (by norm_num) (by norm_num)]
    apply Real.log_pos
    norm_num
  have ht : (0 : Real) < 1 / 2 + 1 / 10 ^ 7 := by norm_num
  have hmul := mul_pos ht hpos
  linarith [hmul]

/-- C3 counterexample: at the concrete batch `X3` (rows `[log 3, 0]` and
`[0, log 3]`, identical student and augmented batches),
`MutualInformationLoss` is strictly negative, refuting non-negativity; and
at the coincident batch `Z2` (student = teacher = `[0, 0]`), `KL_Loss` is
nonzero (the `+ 1e-7` on the teacher softmax makes it strictly positive),
refuting the zero-at-coincidence part. -/
theorem distill_losses_sign_counterexample :
    MutualInformationLoss.forward 1 X3 X3 1 floatEps < 0 ∧
    KL_Loss.forward 1 Z2 Z2 ≠ 0 :=
  ⟨X3_MI_neg, ne_of_gt KL_coincident_pos⟩

/-- C3 (amended): `KL_Loss` and `CE_Loss` are non-negative for every pair of
same-shaped logit batches, and `MutualInformationLoss` (at default
`lamb = 1`, `EPS = sys.float_info.epsilon`) is non-positive whenever no
epsilon clamping triggers. -/
theorem distill_losses_sign :
    (∀ (B n : Nat) (T : Real) (s t : Fin B → Fin n → Real),
      0 ≤ KL_Loss.forward T s t) ∧
    (∀ (B n : Nat) (T : Real) (s t : Fin B → Fin n → Real),
      0 ≤ CE_Loss.forward T s t) ∧
    (∀ (B c : Nat) (T : Real) (x y : Fin B → Fin c → Real),
      (∀ i j, floatEps ≤ MutualInformationLoss.pij T x y i j) →
      (∀ i, floatEps ≤ MutualInformationLoss.p_i T x y i) →
      (∀ j, floatEps ≤ MutualInformationLoss.p_j T x y j) →
      MutualInformationLoss.forward T x y 1 floatEps ≤ 0) :=
  ⟨fun _ _ T s t => KL_loss_nonneg T s t,
   fun _ _ T s t => CE_loss_nonneg T s t,
   fun _ _ T x y hq ha hb => MI_loss_nonpos_of_noclamp T x y hq ha hb⟩

/-- C3 witness: the amended sign facts at the concrete batches `Z2` (for KL
and CE) and `X3` (for the mutual-information loss, whose no-clamp
hypotheses hold there). -/
theorem distill_losses_sign_witness :
    0 ≤ KL_Loss.forward 1 Z2 Z2 ∧
    0 ≤ CE_Loss.forward 1 Z2 Z2 ∧
    MutualInformationLoss.forward 1 X3 X3 1 floatEps ≤ 0 :=
  ⟨distill_losses_sign.1 1 2 1 Z2 Z2,
   distill_losses_sign.2.1 1 2 1 Z2 Z2,
   distill_losses_sign.2.2 2 2 1 X3 X3 X3_noclamp.1 X3_noclamp.2.1
     X3_noclamp.2.2⟩

/-! ### Theorems: epsilon floors before logarithms (C4) -/

/-- C4 (amended): `KL_Loss` floors the tensor whose logarithm `KLDivLoss`
takes at `10⁻⁷`; `IID_loss` and `MutualInformationLoss` clamp every joint
and marginal entry passed to `torch.log` at `EPS`; `CE_Loss` applies no
epsilon floor, but the probabilities whose logarithm its `log_softmax`
represents are strictly positive anyway, so `log(0)` is never evaluated in
any of the four losses. -/
theorem eps_floor_amended :
    (∀ (B n : Nat) (T : Real) (t : Fin B → Fin n → Real) (b : Fin B)
        (i : Fin n),
        1 / 10 ^ 7 ≤ KL_Loss.target T t b i ∧ 0 < KL_Loss.target T t b i) ∧
    (∀ (bn k : Nat) (x y : Fin bn → Fin k → Real) (EPS : Real) (i j : Fin k),
        EPS ≤ epsClamp EPS (compute_joint x y i j) ∧
        EPS ≤ epsClamp EPS (IID_p_i x y i) ∧
        EPS ≤ epsClamp EPS (IID_p_j x y j)) ∧
    (∀ (B c : Nat) (T : Real) (x y : Fin B → Fin c → Real) (EPS : Real)
        (i j : Fin c),
        EPS ≤ epsClamp EPS (MutualInformationLoss.pij T x y i j) ∧
        EPS ≤ epsClamp EPS (MutualInformationLoss.p_i T x y i) ∧
        EPS ≤ epsClamp EPS (MutualInformationLoss.p_j T x y j)) ∧
    (∀ (B n : Nat) (T : Real) (s : Fin B → Fin n → Real) (b : Fin B)
        (i : Fin n),
        0 < CE_Loss.softmaxProbs T s b i ∧
        logSoftmax (fun j => s b j / T) i =
          Real.log (CE_Loss.softmaxProbs T s b i)) := by
  refine ⟨?_, ?_, ?_, ?_⟩
  · intro B n T t b i
    have hpos := softmax_pos (fun j => t b j / T) i
    unfold KL_Loss.target
    constructor
    · nlinarith
    · nlinarith
  · intro bn k x y EPS i j
    exact ⟨le_epsClamp _ _, le_epsClamp _ _, le_epsClamp _ _⟩
  · intro B c T x y EPS i j
    exact ⟨le_epsClamp _ _, le_epsClamp _ _, le_epsClamp _ _⟩
  · intro B n T s b i
    exact ⟨softmax_pos _ i, logSoftmax_eq_log_softmax _ i⟩

/-- C4 counterexample: on the logit row `[0, 40]`, the probability whose
logarithm `CE_Loss`'s `log_softmax` term stands for is strictly positive
but smaller than both epsilons appearing in the file
(`sys.float_info.epsilon` and `10⁻⁷`): no epsilon floor is applied in
`CE_Loss`. -/
theorem eps_floor_counterexample :
    0 < CE_Loss.softmaxProbs 1 (fun (_ : Fin 1) => ![(0 : Real), 40]) 0 0 ∧
    CE_Loss.softmaxProbs 1 (fun (_ : Fin 1) => ![(0 : Real), 40]) 0 0 <
      floatEps ∧
    CE_Loss.softmaxProbs 1 (fun (_ : Fin 1) => ![(0 : Real), 40]) 0 0 <
      1 / 10 ^ 7 := by
  have key : CE_Loss.softmaxProbs 1 (fun (_ : Fin 1) => ![(0 : Real), 40]) 0 0
      = 1 / (1 + Real.exp 40) := by
    unfold CE_Loss.softmaxProbs softmax
    simp [Fin.sum_univ_two, Real.exp_zero]
  have hexp : (2 : Real) ^ 52 < Real.exp 40 := by
    have h40 : Real.exp 40 = Real.exp 1 ^ (40 : Nat) := by
      rw [← Real.exp_nat_mul]
      norm_num
    have hbase : ((271 : Real) / 100) ≤ Real.exp 1 := by
      have := Real.exp_one_gt_d9
      linarith
    have hle : ((271 : Real) / 100) ^ (40 : Nat) ≤ Real.exp 1 ^ (40 : Nat) :=
      pow_le_pow_left (by norm_num) hbase 40
    have hnum : (2 : Real) ^ 52 < ((271 : Real) / 100) ^ (40 : Nat) := by
      norm_num
    rw [h40]
    linarith
  have hpos52 : (0 : Real) < 2 ^ 52 := by positivity
  have hlt : 1 / (1 + Real.exp 40) < 1 / 2 ^ 52 :=
    one_div_lt_one_div_of_lt hpos52 (by linarith)
  refine ⟨?_, ?_, ?_⟩
  · rw [key]
    positivity
  · rw [key]
    unfold floatEps
    exact hlt
  · rw [key]
    have hflt : (1 : Real) / 2 ^ 52 < 1 / 10 ^ 7 := by norm_num
    linarith

end FedML
